import Mathlib

/-!
# Verification of `fse.py` (dbkaplun/fse-made-easy)

Shallow embedding of the FSE entropy coder in `src/fse.py` and proofs of the
specification claims about it.

Python integers are arbitrary-precision and signed, so all numeric fields are
modelled as `Int`.  Python's `divmod(a, b)` is floor division with a remainder
carrying the divisor's sign, which is exactly `Int.fdiv` / `Int.fmod`.
-/

set_option linter.unusedSectionVars false
set_option linter.unusedVariables false

section Defs

variable {α : Type} [DecidableEq α]

/-- One value of the `Statistics` ordered dict in `fse.py`: the per-symbol
record `{'symb': symb, 'prob': prob, 'cdf': cdf}` built by
`Statistics.__init__`. -/
structure SymbolStat (α : Type) where
  symb : α
  prob : Int
  cdf : Int
deriving Repr, DecidableEq

/-- The `Statistics` object of `fse.py`: an insertion-ordered sequence of
per-symbol records (the `OrderedDict` contents, in insertion order) together
with the running `total`. -/
structure Statistics (α : Type) where
  entries : List (SymbolStat α)
  total : Int
deriving Repr, DecidableEq

/-- The loop body of `Statistics.__init__`: for each `(symb, prob)` pair in
order, record `cdf := total` and then advance `total` by `prob`.  Returns the
entry list together with the final `total`. -/
def buildStats : List (α × Int) → Int → List (SymbolStat α) × Int
  | [], total => ([], total)
  | (symb, prob) :: rest, total =>
    let r := buildStats rest (total + prob)
    (⟨symb, prob, total⟩ :: r.1, r.2)

/-- Constructor `Statistics.__init__` from `fse.py`: `total` starts at `1`, each symbol of
the ordered mapping gets `cdf = total` before `total += prob`.  The Python
constructor performs no validation at all: it accepts the empty mapping and
non-positive frequencies without raising.  (A Python dict has distinct keys;
theorems about tables built from a mapping therefore carry a `Nodup`
hypothesis on the key list.) -/
def mkStatistics (probDict : List (α × Int)) : Statistics α :=
  let r := buildStats probDict 1
  ⟨r.1, r.2⟩

/-- Dict lookup `self.stats[symb]` used by `encode`; `none` corresponds to the
`KeyError` Python raises on a missing key. -/
def Statistics.lookup (st : Statistics α) (symb : α) : Option (SymbolStat α) :=
  st.entries.find? (fun e => decide (e.symb = symb))

/-- Method `Statistics.get_by_cdf` from `fse.py`.  The source computes
`idx = bisect_right([obj['cdf'] for obj in values], cdf)`, raises
`ValueError("invalid cdf: " + str(cdf))` when `idx == 0` and otherwise returns
`values[idx-1]`.  On a list of `cdf` values sorted in nondecreasing order
(which every table the claims quantify over has), `bisect_right` returns the
length of the maximal prefix of entries with `cdf ≤` the query, so
`values[idx-1]` is the last entry of that prefix and `idx == 0` means the
prefix is empty. -/
def Statistics.get_by_cdf (st : Statistics α) (cdf : Int) :
    Except String (SymbolStat α) :=
  match (st.entries.takeWhile (fun o => decide (o.cdf ≤ cdf))).getLast? with
  | none => Except.error ("invalid cdf: " ++ toString cdf)
  | some v => Except.ok v

/-- One iteration of the `FSECoder.encode` loop:
`div, mod = divmod(enc, stats['prob']); enc = self.stats.total*div + mod + stats['cdf']`. -/
def encStep (st : Statistics α) (stats : SymbolStat α) (enc : Int) : Int :=
  st.total * enc.fdiv stats.prob + enc.fmod stats.prob + stats.cdf

/-- The `for symb in symbs` loop of `FSECoder.encode`, threading the
accumulator `enc`; a missing symbol aborts the whole call (Python's
`KeyError`), so no result is produced for the earlier symbols either. -/
def encodeAux (st : Statistics α) : List α → Int → Except String Int
  | [], enc => Except.ok enc
  | symb :: rest, enc =>
    match st.lookup symb with
    | none => Except.error "KeyError: unknown symbol"
    | some stats => encodeAux st rest (encStep st stats enc)

/-- Method `FSECoder.encode`: fold the input sequence through `encStep` starting from
`enc = 0`. -/
def encode (st : Statistics α) (symbs : List α) : Except String Int :=
  encodeAux st symbs 0

/-- One iteration's update of the `FSECoder.decode` loop:
`div, mod = divmod(enc, self.stats.total); enc = stats['prob']*div + mod - stats['cdf']`. -/
def decStep (st : Statistics α) (stats : SymbolStat α) (enc : Int) : Int :=
  stats.prob * enc.fdiv st.total + enc.fmod st.total - stats.cdf

/-- The `while enc > 0` loop of `FSECoder.decode`.  The Python loop prepends
each recovered symbol (`symbs.insert(0, stats['symb'])`), so the symbol
recovered from the current `enc` ends up after everything recovered from the
smaller values that follow; the recursion mirrors this by appending it after
the recursive result.  Python has no fuel: `fuel` bounds the number of loop
iterations and `none` is returned only when it runs out, which corresponds to
the loop still running.  For well-formed tables each iteration strictly
decreases a nonnegative `enc` (theorem `decodeAux_total` below), so
`enc.toNat + 1` iterations always suffice and the `none` case is
unreachable from `decode`. -/
def decodeAux (st : Statistics α) (fuel : Nat) (enc : Int) :
    Option (Except String (List α)) :=
  if enc > 0 then
    match fuel with
    | 0 => none
    | fuel' + 1 =>
      match st.get_by_cdf (enc.fmod st.total) with
      | Except.error msg => some (Except.error msg)
      | Except.ok stats =>
        (decodeAux st fuel' (decStep st stats enc)).map
          (Except.map (fun l => l ++ [stats.symb]))
  else some (Except.ok [])

/-- Method `FSECoder.decode`, run with the sufficient fuel `enc.toNat + 1`.  The
fallback branch stands for a non-terminating run of the Python loop and is
provably not taken for tables built from positive frequencies. -/
def decode (st : Statistics α) (enc : Int) : Except String (List α) :=
  match decodeAux st (enc.toNat + 1) enc with
  | some r => r
  | none => Except.error "loop does not terminate"

/-- The structural layout `Statistics.__init__` produces, as a predicate:
starting from running total `t0`, each entry's `cdf` equals the running total,
which then advances by the entry's `prob`, ending at `t`. -/
def Chained : Int → Int → List (SymbolStat α) → Prop
  | t0, t, [] => t0 = t
  | t0, t, e :: es => e.cdf = t0 ∧ Chained (t0 + e.prob) t es

end Defs

section ChainedLemmas

variable {α : Type}

theorem chained_nil {t0 t : Int} : Chained t0 t ([] : List (SymbolStat α)) ↔ t0 = t :=
  Iff.rfl

theorem chained_cons {t0 t : Int} {e : SymbolStat α} {es : List (SymbolStat α)} :
    Chained t0 t (e :: es) ↔ e.cdf = t0 ∧ Chained (t0 + e.prob) t es :=
  Iff.rfl

theorem buildStats_snd (pd : List (α × Int)) (t0 : Int) :
    (buildStats pd t0).2 = t0 + (pd.map Prod.snd).sum := by
  induction pd generalizing t0 with
  | nil => simp [buildStats]
  | cons p rest ih =>
    obtain ⟨s, q⟩ := p
    simp [buildStats, ih (t0 + q)]
    ring

theorem buildStats_symbs (pd : List (α × Int)) (t0 : Int) :
    (buildStats pd t0).1.map SymbolStat.symb = pd.map Prod.fst := by
  induction pd generalizing t0 with
  | nil => rfl
  | cons p rest ih =>
    obtain ⟨s, q⟩ := p
    simp [buildStats, ih]

theorem buildStats_probs (pd : List (α × Int)) (t0 : Int) :
    (buildStats pd t0).1.map SymbolStat.prob = pd.map Prod.snd := by
  induction pd generalizing t0 with
  | nil => rfl
  | cons p rest ih =>
    obtain ⟨s, q⟩ := p
    simp [buildStats, ih]

theorem buildStats_chained (pd : List (α × Int)) (t0 : Int) :
    Chained t0 (buildStats pd t0).2 (buildStats pd t0).1 := by
  induction pd generalizing t0 with
  | nil => exact rfl
  | cons p rest ih =>
    obtain ⟨s, q⟩ := p
    exact ⟨rfl, ih (t0 + q)⟩

theorem Chained.le {t0 t : Int} {es : List (SymbolStat α)}
    (h : Chained t0 t es) (hp : ∀ e ∈ es, 1 ≤ e.prob) : t0 ≤ t := by
  induction es generalizing t0 with
  | nil => rw [chained_nil] at h; omega
  | cons a rest ih =>
    rw [chained_cons] at h
    have h1 := ih h.2 (fun e he => hp e (List.mem_cons_of_mem _ he))
    have h2 := hp a (List.mem_cons_self _ _)
    omega

theorem Chained.mem_bounds {t0 t : Int} {es : List (SymbolStat α)}
    (h : Chained t0 t es) (hp : ∀ e ∈ es, 1 ≤ e.prob) :
    ∀ e ∈ es, t0 ≤ e.cdf ∧ e.cdf + e.prob ≤ t := by
  induction es generalizing t0 with
  | nil => intro e he; simp at he
  | cons a rest ih =>
    rw [chained_cons] at h
    obtain ⟨h1, h2⟩ := h
    have hrest : ∀ e ∈ rest, 1 ≤ e.prob := fun e he => hp e (List.mem_cons_of_mem _ he)
    intro e he
    rcases List.mem_cons.mp he with rfl | hmem
    · have hle := h2.le hrest
      have := hp e (List.mem_cons_self _ _)
      omega
    · have hb := ih h2 hrest e hmem
      have := hp a (List.mem_cons_self _ _)
      omega

theorem Chained.lookup {t0 t x : Int} {es : List (SymbolStat α)} {e : SymbolStat α}
    (h : Chained t0 t es) (hp : ∀ e' ∈ es, 1 ≤ e'.prob) (hmem : e ∈ es)
    (hx1 : e.cdf ≤ x) (hx2 : x < e.cdf + e.prob) :
    (es.takeWhile (fun o => decide (o.cdf ≤ x))).getLast? = some e := by
  induction es generalizing t0 with
  | nil => simp at hmem
  | cons a rest ih =>
    rw [chained_cons] at h
    obtain ⟨hca, hch⟩ := h
    have hrest : ∀ e' ∈ rest, 1 ≤ e'.prob := fun e' he' => hp e' (List.mem_cons_of_mem _ he')
    rcases List.mem_cons.mp hmem with rfl | hmem'
    · rw [List.takeWhile_cons, if_pos (decide_eq_true hx1)]
      cases rest with
      | nil => simp
      | cons b rest2 =>
        rw [chained_cons] at hch
        have hbc : b.cdf = t0 + e.prob := hch.1
        rw [List.takeWhile_cons,
          if_neg (by simp only [decide_eq_true_eq]; omega)]
        simp
    · have hb := hch.mem_bounds hrest e hmem'
      have hap := hp a (List.mem_cons_self _ _)
      have hpa : a.cdf ≤ x := by omega
      rw [List.takeWhile_cons, if_pos (decide_eq_true hpa)]
      have htw := ih hch hrest hmem'
      cases hl : rest.takeWhile (fun o => decide (o.cdf ≤ x)) with
      | nil => rw [hl] at htw; simp at htw
      | cons c l2 =>
        rw [hl] at htw
        rw [List.getLast?_cons_cons]
        exact htw

theorem Chained.exists_containing {t0 t x : Int} {es : List (SymbolStat α)}
    (h : Chained t0 t es) (hp : ∀ e ∈ es, 1 ≤ e.prob)
    (hx1 : t0 ≤ x) (hx2 : x < t) :
    ∃ e ∈ es, e.cdf ≤ x ∧ x < e.cdf + e.prob := by
  induction es generalizing t0 with
  | nil => rw [chained_nil] at h; omega
  | cons a rest ih =>
    rw [chained_cons] at h
    obtain ⟨hca, hch⟩ := h
    have hrest : ∀ e ∈ rest, 1 ≤ e.prob := fun e he => hp e (List.mem_cons_of_mem _ he)
    by_cases hcase : x < t0 + a.prob
    · exact ⟨a, List.mem_cons_self _ _, by omega, by omega⟩
    · obtain ⟨e, hm, hb1, hb2⟩ := ih hch hrest (by omega)
      exact ⟨e, List.mem_cons_of_mem _ hm, hb1, hb2⟩

end ChainedLemmas

section TableLemmas

variable {α : Type} [DecidableEq α]

theorem getLast?_mem {β : Type} {l : List β} {v : β} (h : l.getLast? = some v) :
    v ∈ l := by
  obtain ⟨hne, heq⟩ := List.mem_getLast?_eq_getLast (Option.mem_def.mpr h)
  rw [heq]
  exact List.getLast_mem hne

theorem mk_chained (pd : List (α × Int)) :
    Chained 1 (mkStatistics pd).total (mkStatistics pd).entries :=
  buildStats_chained pd 1

theorem mk_total (pd : List (α × Int)) :
    (mkStatistics pd).total = 1 + (pd.map Prod.snd).sum :=
  buildStats_snd pd 1

theorem mk_symbs (pd : List (α × Int)) :
    (mkStatistics pd).entries.map SymbolStat.symb = pd.map Prod.fst :=
  buildStats_symbs pd 1

theorem mk_probs_pos {pd : List (α × Int)} (hpos : ∀ q ∈ pd, 1 ≤ q.2) :
    ∀ e ∈ (mkStatistics pd).entries, 1 ≤ e.prob := by
  intro e he
  have hmem : e.prob ∈ (mkStatistics pd).entries.map SymbolStat.prob :=
    List.mem_map_of_mem _ he
  rw [show (mkStatistics pd).entries = (buildStats pd 1).1 from rfl,
    buildStats_probs] at hmem
  obtain ⟨q, hq, hq2⟩ := List.mem_map.mp hmem
  rw [← hq2]
  exact hpos q hq

theorem Statistics.get_by_cdf_ok_of_mem {st : Statistics α} {e : SymbolStat α} {x : Int}
    (hch : Chained 1 st.total st.entries) (hp : ∀ e' ∈ st.entries, 1 ≤ e'.prob)
    (hmem : e ∈ st.entries) (hx1 : e.cdf ≤ x) (hx2 : x < e.cdf + e.prob) :
    st.get_by_cdf x = Except.ok e := by
  unfold Statistics.get_by_cdf
  rw [hch.lookup hp hmem hx1 hx2]

theorem Statistics.get_by_cdf_ok_mem {st : Statistics α} {x : Int} {e : SymbolStat α}
    (h : st.get_by_cdf x = Except.ok e) : e ∈ st.entries ∧ e.cdf ≤ x := by
  unfold Statistics.get_by_cdf at h
  cases hl : (st.entries.takeWhile (fun o => decide (o.cdf ≤ x))).getLast? with
  | none => rw [hl] at h; simp at h
  | some v =>
    rw [hl] at h
    have hv : v = e := by simpa using h
    subst hv
    have hvtw := getLast?_mem hl
    have hpre := List.takeWhile_prefix (l := st.entries) (fun o => decide (o.cdf ≤ x))
    refine ⟨hpre.subset hvtw, ?_⟩
    have hpred := List.mem_takeWhile_imp hvtw
    simpa using hpred

theorem Statistics.get_by_cdf_error_iff {st : Statistics α} {x : Int}
    (hch : Chained 1 st.total st.entries) (hne : st.entries ≠ []) :
    (∃ m, st.get_by_cdf x = Except.error m) ↔ x < 1 := by
  cases hes : st.entries with
  | nil => exact absurd hes hne
  | cons a rest =>
    rw [hes, chained_cons] at hch
    have hca : a.cdf = 1 := hch.1
    constructor
    · rintro ⟨m, hm⟩
      by_contra hx
      push_neg at hx
      unfold Statistics.get_by_cdf at hm
      rw [hes, List.takeWhile_cons, if_pos (decide_eq_true (by omega))] at hm
      have hsome : ((a :: rest.takeWhile (fun o => decide (o.cdf ≤ x))).getLast?).isSome :=
        List.getLast?_isSome.mpr (by simp)
      obtain ⟨v, hv⟩ := Option.isSome_iff_exists.mp hsome
      rw [hv] at hm
      simp at hm
    · intro hx
      unfold Statistics.get_by_cdf
      rw [hes, List.takeWhile_cons,
        if_neg (by simp only [decide_eq_true_eq]; omega)]
      exact ⟨_, rfl⟩

theorem Statistics.lookup_spec {st : Statistics α} {s : α} {e : SymbolStat α}
    (h : st.lookup s = some e) : e ∈ st.entries ∧ e.symb = s := by
  unfold Statistics.lookup at h
  have hpred := List.find?_some h
  exact ⟨List.mem_of_find?_eq_some h, by simpa using hpred⟩

theorem Statistics.lookup_isSome {st : Statistics α} {s : α}
    (h : s ∈ st.entries.map SymbolStat.symb) : ∃ e, st.lookup s = some e := by
  obtain ⟨e, he, hes⟩ := List.mem_map.mp h
  have : (st.entries.find? (fun e => decide (e.symb = s))).isSome :=
    List.find?_isSome.mpr ⟨e, he, decide_eq_true hes⟩
  exact Option.isSome_iff_exists.mp this

end TableLemmas

section StepLemmas

variable {α : Type} [DecidableEq α]

theorem encStep_eq {st : Statistics α} {e : SymbolStat α} (enc : Int)
    (hp1 : 1 ≤ e.prob) :
    encStep st e enc = st.total * (enc / e.prob) + enc % e.prob + e.cdf := by
  unfold encStep
  rw [Int.fdiv_eq_ediv _ (by omega), Int.fmod_eq_emod _ (by omega)]

/-- One encode iteration followed by one decode iteration is the identity:
the encode step moves `enc` to `total * (enc / prob) + enc % prob + cdf`,
whose division by `total` recovers quotient `enc / prob` and remainder
`enc % prob + cdf` (since that remainder lies in `[cdf, cdf + prob) ⊆ [1, total)`),
from which the decode update restores `enc`.  The step also strictly
increases the accumulator, so codes of nonempty sequences are positive. -/
theorem encStep_spec {st : Statistics α} {e : SymbolStat α} {enc : Int}
    (hp1 : 1 ≤ e.prob) (hc1 : 1 ≤ e.cdf) (hct : e.cdf + e.prob ≤ st.total)
    (h0 : 0 ≤ enc) :
    0 < encStep st e enc ∧ enc < encStep st e enc ∧
    (encStep st e enc).fmod st.total = enc % e.prob + e.cdf ∧
    (encStep st e enc).fdiv st.total = enc / e.prob ∧
    decStep st e (encStep st e enc) = enc := by
  have hq : 0 ≤ enc / e.prob := Int.ediv_nonneg h0 (by omega)
  have hr0 : 0 ≤ enc % e.prob := Int.emod_nonneg enc (by omega)
  have hrp : enc % e.prob < e.prob := Int.emod_lt_of_pos enc (by omega)
  have htot : 0 < st.total := by omega
  have henc : e.prob * (enc / e.prob) + enc % e.prob = enc := Int.ediv_add_emod enc e.prob
  have hE : encStep st e enc = st.total * (enc / e.prob) + enc % e.prob + e.cdf :=
    encStep_eq enc hp1
  have hrearr : encStep st e enc
      = (enc % e.prob + e.cdf) + st.total * (enc / e.prob) := by rw [hE]; ring
  have hsmall0 : 0 ≤ enc % e.prob + e.cdf := by omega
  have hsmallt : enc % e.prob + e.cdf < st.total := by omega
  have hmod : (encStep st e enc).fmod st.total = enc % e.prob + e.cdf := by
    rw [Int.fmod_eq_emod _ (by omega), hrearr, Int.add_mul_emod_self_left,
      Int.emod_eq_of_lt hsmall0 hsmallt]
  have hdiv : (encStep st e enc).fdiv st.total = enc / e.prob := by
    rw [Int.fdiv_eq_ediv _ (by omega), hrearr,
      Int.add_mul_ediv_left _ _ (by omega : st.total ≠ 0),
      Int.ediv_eq_zero_of_lt hsmall0 hsmallt, zero_add]
  have haux : 0 ≤ (st.total - e.prob) * (enc / e.prob) :=
    mul_nonneg (by omega) hq
  have hauxe : (st.total - e.prob) * (enc / e.prob)
      = st.total * (enc / e.prob) - e.prob * (enc / e.prob) := by ring
  have hlt : enc < encStep st e enc := by
    rw [hE]
    linarith
  have hpos : 0 < encStep st e enc := by omega
  refine ⟨hpos, hlt, hmod, hdiv, ?_⟩
  unfold decStep
  rw [hmod, hdiv]
  omega

/-- For a chained table, the decode-side lookup at the remainder produced by
an encode step finds exactly the entry the encode step used. -/
theorem get_by_cdf_encStep {st : Statistics α} {e : SymbolStat α} {enc : Int}
    (hch : Chained 1 st.total st.entries) (hp : ∀ e' ∈ st.entries, 1 ≤ e'.prob)
    (he : e ∈ st.entries) (h0 : 0 ≤ enc) :
    st.get_by_cdf ((encStep st e enc).fmod st.total) = Except.ok e := by
  have hp1 : 1 ≤ e.prob := hp e he
  have hb := hch.mem_bounds hp e he
  have hspec := encStep_spec hp1 hb.1 hb.2 h0
  rw [hspec.2.2.1]
  have hr0 : 0 ≤ enc % e.prob := Int.emod_nonneg enc (by omega)
  have hrp : enc % e.prob < e.prob := Int.emod_lt_of_pos enc (by omega)
  exact Statistics.get_by_cdf_ok_of_mem hch hp he (by omega) (by omega)

end StepLemmas

section CoderLemmas

variable {α : Type} [DecidableEq α]

theorem encodeAux_append (st : Statistics α) (l1 l2 : List α) (enc : Int) :
    encodeAux st (l1 ++ l2) enc
      = Except.bind (encodeAux st l1 enc) (encodeAux st l2) := by
  induction l1 generalizing enc with
  | nil => rfl
  | cons s rest ih =>
    show encodeAux st (s :: (rest ++ l2)) enc = _
    unfold encodeAux
    cases st.lookup s with
    | none => rfl
    | some stats => exact ih (encStep st stats enc)

theorem encodeAux_ok_bounds {st : Statistics α}
    (hch : Chained 1 st.total st.entries) (hp : ∀ e ∈ st.entries, 1 ≤ e.prob) :
    ∀ {l : List α} {enc v : Int}, 0 ≤ enc → encodeAux st l enc = Except.ok v →
      enc ≤ v := by
  intro l
  induction l with
  | nil =>
    intro enc v h0 h
    have : enc = v := by simpa [encodeAux] using h
    omega
  | cons s rest ih =>
    intro enc v h0 h
    unfold encodeAux at h
    cases hl : st.lookup s with
    | none => rw [hl] at h; simp at h
    | some stats =>
      rw [hl] at h
      obtain ⟨hmem, _⟩ := Statistics.lookup_spec hl
      have hb := hch.mem_bounds hp stats hmem
      have hspec := encStep_spec (hp stats hmem) hb.1 hb.2 h0
      have hrec := ih (le_of_lt hspec.1) h
      omega


theorem decodeAux_nonpos (st : Statistics α) (fuel : Nat) {enc : Int}
    (h : enc ≤ 0) : decodeAux st fuel enc = some (Except.ok []) := by
  rw [decodeAux.eq_def, if_neg (by omega)]

theorem decodeAux_succ_error (st : Statistics α) (fuel : Nat) {enc : Int}
    {msg : String} (h : 0 < enc)
    (hg : st.get_by_cdf (enc.fmod st.total) = Except.error msg) :
    decodeAux st (fuel + 1) enc = some (Except.error msg) := by
  rw [decodeAux.eq_def, if_pos h]
  simp only [hg]

theorem decodeAux_succ_ok (st : Statistics α) (fuel : Nat) {enc : Int}
    {stats : SymbolStat α} (h : 0 < enc)
    (hg : st.get_by_cdf (enc.fmod st.total) = Except.ok stats) :
    decodeAux st (fuel + 1) enc
      = (decodeAux st fuel (decStep st stats enc)).map
          (Except.map (fun l => l ++ [stats.symb])) := by
  rw [decodeAux.eq_def, if_pos h]
  simp only [hg]

theorem decodeAux_mono {st : Statistics α} :
    ∀ {fuel fuel' : Nat} {enc : Int} {r : Except String (List α)},
      decodeAux st fuel enc = some r → fuel ≤ fuel' →
        decodeAux st fuel' enc = some r := by
  intro fuel
  induction fuel with
  | zero =>
    intro fuel' enc r h _
    by_cases h0 : 0 < enc
    · rw [decodeAux.eq_def, if_pos h0] at h
      exact absurd h (by simp)
    · rw [decodeAux_nonpos st _ (by omega)] at h
      rw [decodeAux_nonpos st _ (by omega)]
      exact h
  | succ f ih =>
    intro fuel' enc r h hle
    by_cases h0 : 0 < enc
    · obtain ⟨f2, rfl⟩ : ∃ f2, fuel' = f2 + 1 := ⟨fuel' - 1, by omega⟩
      cases hg : st.get_by_cdf (enc.fmod st.total) with
      | error msg =>
        rw [decodeAux_succ_error st f h0 hg] at h
        rw [decodeAux_succ_error st f2 h0 hg]
        exact h
      | ok stats =>
        rw [decodeAux_succ_ok st f h0 hg] at h
        rw [decodeAux_succ_ok st f2 h0 hg]
        simp only [Option.map_eq_some'] at h
        obtain ⟨r1, hr1, hr2⟩ := h
        rw [ih hr1 (by omega)]
        simp [hr2]
    · rw [decodeAux_nonpos st _ (by omega)] at h
      rw [decodeAux_nonpos st _ (by omega)]
      exact h

/-- With a chained table of positive frequencies every decode iteration on a
positive accumulator either raises (terminating the loop) or strictly
decreases the accumulator, so `fuel` iterations settle any `enc < fuel`. -/
theorem decodeAux_total {st : Statistics α}
    (hch : Chained 1 st.total st.entries) (hp : ∀ e ∈ st.entries, 1 ≤ e.prob) :
    ∀ (fuel : Nat) (enc : Int), enc < (fuel : Int) →
      decodeAux st fuel enc ≠ none := by
  intro fuel
  induction fuel with
  | zero =>
    intro enc h
    rw [decodeAux_nonpos st _ (by omega)]
    simp
  | succ f ih =>
    intro enc h
    by_cases h0 : 0 < enc
    · cases hg : st.get_by_cdf (enc.fmod st.total) with
      | error msg => rw [decodeAux_succ_error st f h0 hg]; simp
      | ok stats =>
        rw [decodeAux_succ_ok st f h0 hg]
        obtain ⟨hmem, hcle⟩ := Statistics.get_by_cdf_ok_mem hg
        have hb := hch.mem_bounds hp stats hmem
        have hp1 : 1 ≤ stats.prob := hp stats hmem
        have htot : 0 < st.total := by omega
        have hq : 0 ≤ enc / st.total := Int.ediv_nonneg (by omega) (by omega)
        have henc : st.total * (enc / st.total) + enc % st.total = enc :=
          Int.ediv_add_emod enc st.total
        have hlt : decStep st stats enc < enc := by
          unfold decStep
          rw [Int.fdiv_eq_ediv _ (by omega), Int.fmod_eq_emod _ (by omega)]
          have haux : 0 ≤ (st.total - stats.prob) * (enc / st.total) :=
            mul_nonneg (by omega) hq
          have hauxe : (st.total - stats.prob) * (enc / st.total)
              = st.total * (enc / st.total) - stats.prob * (enc / st.total) := by
            ring
          linarith
        have hrec := ih (decStep st stats enc) (by omega)
        simp only [ne_eq, Option.map_eq_none']
        exact hrec
    · rw [decodeAux_nonpos st _ (by omega)]
      simp

/-- Core round-trip lemma: a successful encode produces a nonnegative code
that `decodeAux` (with its sufficient fuel) maps back to the input. -/
theorem decodeAux_encodeAux {st : Statistics α}
    (hch : Chained 1 st.total st.entries) (hp : ∀ e ∈ st.entries, 1 ≤ e.prob) :
    ∀ (symbs : List α) (v : Int), encode st symbs = Except.ok v →
      0 ≤ v ∧ decodeAux st (v.toNat + 1) v = some (Except.ok symbs) := by
  intro symbs
  induction symbs using List.reverseRecOn with
  | nil =>
    intro v h
    have hv : v = 0 := by simpa [encode, encodeAux] using h.symm
    subst hv
    exact ⟨le_refl 0, decodeAux_nonpos st _ (by omega)⟩
  | append_singleton l x ih =>
    intro v h
    rw [encode, encodeAux_append] at h
    cases he : encodeAux st l 0 with
    | error m => rw [he] at h; exact absurd h (by simp [Except.bind])
    | ok e =>
      rw [he] at h
      obtain ⟨he0, hdec⟩ := ih e he
      simp only [Except.bind] at h
      unfold encodeAux at h
      cases hl : st.lookup x with
      | none => rw [hl] at h; simp at h
      | some stats =>
        rw [hl] at h
        have hv : v = encStep st stats e := by
          simpa [encodeAux] using h.symm
        subst hv
        obtain ⟨hmem, hsymb⟩ := Statistics.lookup_spec hl
        have hb := hch.mem_bounds hp stats hmem
        have hspec := encStep_spec (hp stats hmem) hb.1 hb.2 he0
        have hget := get_by_cdf_encStep hch hp hmem he0
        refine ⟨by omega, ?_⟩
        rw [decodeAux_succ_ok st _ hspec.1 hget]
        have hdec2 : decodeAux st (encStep st stats e).toNat e = some (Except.ok l) :=
          decodeAux_mono hdec (by omega)
        rw [hspec.2.2.2.2, hdec2]
        simp [hsymb, Except.map]

end CoderLemmas

section MoreLemmas

variable {α : Type} [DecidableEq α]

theorem Chained.pairwise_lt {t0 t : Int} {es : List (SymbolStat α)}
    (h : Chained t0 t es) (hp : ∀ e ∈ es, 1 ≤ e.prob) :
    (es.map SymbolStat.cdf).Pairwise (· < ·) := by
  induction es generalizing t0 with
  | nil => simp
  | cons a rest ih =>
    rw [chained_cons] at h
    obtain ⟨hca, hch⟩ := h
    have hrest : ∀ e ∈ rest, 1 ≤ e.prob := fun e he => hp e (List.mem_cons_of_mem _ he)
    rw [List.map_cons, List.pairwise_cons]
    refine ⟨?_, ih hch hrest⟩
    intro y hy
    obtain ⟨e, hmem, rfl⟩ := List.mem_map.mp hy
    have hb := hch.mem_bounds hrest e hmem
    have := hp a (List.mem_cons_self _ _)
    omega

theorem Chained.chain_adjacent {t0 t : Int} {es : List (SymbolStat α)}
    (h : Chained t0 t es) :
    List.Chain' (fun a b => a.cdf + a.prob = b.cdf) es := by
  induction es generalizing t0 with
  | nil => simp
  | cons a rest ih =>
    rw [chained_cons] at h
    obtain ⟨hca, hch⟩ := h
    rw [List.chain'_cons']
    refine ⟨?_, ih hch⟩
    intro y hy
    cases rest with
    | nil => simp at hy
    | cons b r2 =>
      have hb : b.cdf = t0 + a.prob := hch.1
      have hyb : b = y := by simpa using hy
      subst hyb
      omega

theorem Chained.last_spec {t0 t : Int} {es : List (SymbolStat α)}
    (h : Chained t0 t es) :
    ∀ e, es.getLast? = some e → e.cdf + e.prob = t := by
  induction es generalizing t0 with
  | nil => intro e he; simp at he
  | cons a rest ih =>
    rw [chained_cons] at h
    obtain ⟨hca, hch⟩ := h
    intro e he
    cases rest with
    | nil =>
      have hea : e = a := by simpa using he.symm
      subst hea
      rw [chained_nil] at hch
      omega
    | cons b r2 =>
      rw [List.getLast?_cons_cons] at he
      exact ih hch e he

/-- Below every `cdf` of a chained table (in particular below the base offset
`1` of a constructed table) the lookup raises, with the source's exact
message. -/
theorem Statistics.get_by_cdf_error_eq {st : Statistics α}
    (hch : Chained 1 st.total st.entries) {x : Int} (hx : x < 1) :
    st.get_by_cdf x = Except.error ("invalid cdf: " ++ toString x) := by
  unfold Statistics.get_by_cdf
  cases hes : st.entries with
  | nil => rfl
  | cons a rest =>
    rw [hes, chained_cons] at hch
    rw [List.takeWhile_cons, if_neg (by simp only [decide_eq_true_eq]; omega)]
    rfl

theorem encodeAux_ok_of_known {st : Statistics α} :
    ∀ (l : List α) (enc : Int), (∀ s ∈ l, ∃ e, st.lookup s = some e) →
      ∃ v, encodeAux st l enc = Except.ok v := by
  intro l
  induction l with
  | nil => intro enc _; exact ⟨enc, rfl⟩
  | cons s rest ih =>
    intro enc hall
    obtain ⟨e, he⟩ := hall s (List.mem_cons_self _ _)
    have hrest : ∀ s ∈ rest, ∃ e, st.lookup s = some e :=
      fun s hs => hall s (List.mem_cons_of_mem _ hs)
    obtain ⟨v, hv⟩ := ih (encStep st e enc) hrest
    refine ⟨v, ?_⟩
    unfold encodeAux
    rw [he]
    exact hv

theorem encodeAux_error_of_unknown {st : Statistics α} :
    ∀ (l : List α) (enc : Int), (∃ s ∈ l, st.lookup s = none) →
      ∃ msg, encodeAux st l enc = Except.error msg := by
  intro l
  induction l with
  | nil => intro enc h; simp at h
  | cons a rest ih =>
    intro enc h
    cases ha : st.lookup a with
    | none =>
      refine ⟨"KeyError: unknown symbol", ?_⟩
      unfold encodeAux
      rw [ha]
    | some stats =>
      obtain ⟨s, hs, hnone⟩ := h
      rcases List.mem_cons.mp hs with rfl | hmem
      · rw [ha] at hnone; simp at hnone
      · obtain ⟨msg, hmsg⟩ := ih (encStep st stats enc) ⟨s, hmem, hnone⟩
        refine ⟨msg, ?_⟩
        unfold encodeAux
        rw [ha]
        exact hmsg

theorem decode_eq {st : Statistics α} {enc : Int} {r : Except String (List α)}
    (h : decodeAux st (enc.toNat + 1) enc = some r) : decode st enc = r := by
  unfold decode
  rw [h]

/-- Each successful decode iteration strictly decreases the (positive)
accumulator, and keeps it nonnegative. -/
theorem decStep_lt {st : Statistics α}
    (hch : Chained 1 st.total st.entries) (hp : ∀ e ∈ st.entries, 1 ≤ e.prob)
    {stats : SymbolStat α} {enc : Int} (h0 : 0 < enc)
    (hg : st.get_by_cdf (enc.fmod st.total) = Except.ok stats) :
    decStep st stats enc < enc ∧ 0 ≤ decStep st stats enc := by
  obtain ⟨hmem, hcle⟩ := Statistics.get_by_cdf_ok_mem hg
  have hb := hch.mem_bounds hp stats hmem
  have hp1 : 1 ≤ stats.prob := hp stats hmem
  have htot : 0 < st.total := by omega
  have hq : 0 ≤ enc / st.total := Int.ediv_nonneg (by omega) (by omega)
  have henc : st.total * (enc / st.total) + enc % st.total = enc :=
    Int.ediv_add_emod enc st.total
  have hfd : enc.fmod st.total = enc % st.total := Int.fmod_eq_emod _ (by omega)
  rw [hfd] at hcle
  have haux : 0 ≤ (st.total - stats.prob) * (enc / st.total) :=
    mul_nonneg (by omega) hq
  have hauxe : (st.total - stats.prob) * (enc / st.total)
      = st.total * (enc / st.total) - stats.prob * (enc / st.total) := by ring
  have hq0 : 0 ≤ stats.prob * (enc / st.total) := mul_nonneg (by omega) hq
  constructor
  · unfold decStep
    rw [Int.fdiv_eq_ediv _ (by omega), hfd]
    linarith
  · unfold decStep
    rw [Int.fdiv_eq_ediv _ (by omega), hfd]
    omega

end MoreLemmas

section EncodeUnfold

variable {α : Type} [DecidableEq α]

theorem encodeAux_cons_none {st : Statistics α} {s : α} (rest : List α) (enc : Int)
    (h : st.lookup s = none) :
    encodeAux st (s :: rest) enc = Except.error "KeyError: unknown symbol" := by
  conv_lhs => rw [encodeAux.eq_def]
  simp only [h]

theorem encodeAux_cons_some {st : Statistics α} {s : α} {stats : SymbolStat α}
    (rest : List α) (enc : Int) (h : st.lookup s = some stats) :
    encodeAux st (s :: rest) enc = encodeAux st rest (encStep st stats enc) := by
  conv_lhs => rw [encodeAux.eq_def]
  simp only [h]

end EncodeUnfold

section Claims

/-- C2: for the table built from the ordered mapping `{'a': 1, 'b': 1}`
(total `3`, `'a'` at cdf `1`, `'b'` at cdf `2`), `encode "ab"` returns
exactly `5` and `decode 5` returns exactly `['a', 'b']`. -/
theorem claim_c2_concrete_scenario :
    mkStatistics [('a', (1 : Int)), ('b', 1)]
        = ⟨[⟨'a', 1, 1⟩, ⟨'b', 1, 2⟩], 3⟩
    ∧ encode (mkStatistics [('a', (1 : Int)), ('b', 1)]) ['a', 'b'] = Except.ok 5
    ∧ decode (mkStatistics [('a', (1 : Int)), ('b', 1)]) 5 = Except.ok ['a', 'b'] :=
  ⟨rfl, rfl, rfl⟩

/-- C5 counterexample: `Statistics.__init__` performs no validation, so
constructing a table from the empty mapping, from a zero frequency, or from a
negative frequency succeeds and returns a table instead of raising a
`ConfigurationError` (no such error exists in the code). -/
theorem claim_c5_counterexample :
    mkStatistics ([] : List (Char × Int)) = ⟨[], 1⟩
    ∧ mkStatistics [('a', (0 : Int))] = ⟨[⟨'a', 0, 1⟩], 1⟩
    ∧ mkStatistics [('a', (-2 : Int))] = ⟨[⟨'a', -2, 1⟩], -1⟩ :=
  ⟨rfl, rfl, rfl⟩

/-- C5 amended: construction never fails: for every frequency mapping,
including the empty one and ones with non-positive frequencies, the
constructor produces a table with one entry per mapping item and
`total = 1 +` the sum of the frequencies. -/
theorem claim_c5_no_validation {α : Type} [DecidableEq α] (pd : List (α × Int)) :
    (mkStatistics pd).total = 1 + (pd.map Prod.snd).sum
    ∧ (mkStatistics pd).entries.length = pd.length := by
  refine ⟨mk_total pd, ?_⟩
  have h := congrArg List.length (mk_symbs pd)
  simpa using h

/-- C6: encoding a sequence containing a symbol absent from the table's
alphabet fails with the unknown-symbol error (Python's `KeyError` from the
dict lookup); the whole call returns an error, never a partial or zero
result. -/
theorem claim_c6_unknown_symbol {α : Type} [DecidableEq α] (st : Statistics α)
    (symbs : List α)
    (h : ∃ s ∈ symbs, s ∉ st.entries.map SymbolStat.symb) :
    ∃ msg, encode st symbs = Except.error msg := by
  obtain ⟨s, hs, hnot⟩ := h
  have hnone : st.lookup s = none := by
    unfold Statistics.lookup
    rw [List.find?_eq_none]
    intro e he
    simp only [decide_eq_true_eq]
    intro heq
    exact hnot (List.mem_map.mpr ⟨e, he, heq⟩)
  exact encodeAux_error_of_unknown symbs 0 ⟨s, hs, hnone⟩

/-- C6 witness: encoding `"ax"` with the table over alphabet `{'a'}` fails. -/
theorem claim_c6_unknown_symbol_witness :
    (∃ s ∈ (['a', 'x'] : List Char),
        s ∉ (mkStatistics [('a', (1 : Int))]).entries.map SymbolStat.symb)
    ∧ ∃ msg, encode (mkStatistics [('a', (1 : Int))]) ['a', 'x']
        = Except.error msg :=
  ⟨by decide, claim_c6_unknown_symbol _ _ (by decide)⟩

/-- C9: for a table built from positive frequencies, encode returns `ok 0`
exactly on the empty sequence: every symbol step adds a cdf offset of at
least `1`, so a nonempty sequence of known symbols encodes to something
`≥ 1`, and a nonempty sequence with an unknown symbol errors instead. -/
theorem claim_c9_zero_iff_empty {α : Type} [DecidableEq α] (pd : List (α × Int))
    (hpos : ∀ q ∈ pd, 1 ≤ q.2) (symbs : List α) :
    encode (mkStatistics pd) symbs = Except.ok 0 ↔ symbs = [] := by
  constructor
  · intro h
    cases symbs with
    | nil => rfl
    | cons s rest =>
      exfalso
      have hch := mk_chained pd
      have hp := mk_probs_pos hpos
      unfold encode at h
      cases hl : (mkStatistics pd).lookup s with
      | none => rw [encodeAux_cons_none rest 0 hl] at h; simp at h
      | some stats =>
        rw [encodeAux_cons_some rest 0 hl] at h
        obtain ⟨hmem, _⟩ := Statistics.lookup_spec hl
        have hb := hch.mem_bounds hp stats hmem
        have hspec := encStep_spec (hp stats hmem) hb.1 hb.2 (le_refl 0)
        have hbound := encodeAux_ok_bounds hch hp (le_of_lt hspec.1) h
        omega
  · intro h
    subst h
    rfl

/-- C9 witness: with the table over `{'a': 1}`, encoding `['a']` does not
give `0` (it gives `2`), matching the equivalence at a nonempty input. -/
theorem claim_c9_zero_iff_empty_witness :
    (∀ q ∈ [('a', (1 : Int))], 1 ≤ q.2)
    ∧ (encode (mkStatistics [('a', (1 : Int))]) ['a'] = Except.ok 0
        ↔ (['a'] : List Char) = []) :=
  ⟨by decide, claim_c9_zero_iff_empty [('a', (1 : Int))] (by decide) ['a']⟩

/-- C10: decode does not check its documented precondition `code ≥ 0`: the
loop guard `enc > 0` makes every negative input behave exactly like `0`,
returning the empty sequence with no error, for every table. -/
theorem claim_c10_negative_input {α : Type} [DecidableEq α] (st : Statistics α)
    (enc : Int) (h : enc < 0) :
    decode st enc = Except.ok [] ∧ decode st enc = decode st 0 := by
  have h1 : decode st enc = Except.ok [] :=
    decode_eq (decodeAux_nonpos st _ (by omega))
  have h2 : decode st 0 = Except.ok [] :=
    decode_eq (decodeAux_nonpos st _ (by omega))
  exact ⟨h1, h1.trans h2.symm⟩

/-- C10 witness: decoding `-1` with the `{'a': 1}` table returns `[]`. -/
theorem claim_c10_negative_input_witness :
    ((-1 : Int) < 0)
    ∧ (decode (mkStatistics [('a', (1 : Int))]) (-1) = Except.ok []
        ∧ decode (mkStatistics [('a', (1 : Int))]) (-1)
            = decode (mkStatistics [('a', (1 : Int))]) 0) :=
  ⟨by decide, claim_c10_negative_input (mkStatistics [('a', (1 : Int))]) (-1) (by decide)⟩

theorem mk_entries_ne_nil {α : Type} [DecidableEq α] {pd : List (α × Int)}
    (hne : pd ≠ []) : (mkStatistics pd).entries ≠ [] := by
  intro h
  apply hne
  have hsy := mk_symbs pd
  rw [h] at hsy
  exact List.map_eq_nil_iff.mp hsy.symm

theorem mk_total_ge_two {α : Type} [DecidableEq α] {pd : List (α × Int)}
    (hne : pd ≠ []) (hpos : ∀ q ∈ pd, 1 ≤ q.2) :
    2 ≤ (mkStatistics pd).total := by
  have hch := mk_chained pd
  have hp := mk_probs_pos hpos
  have hene := mk_entries_ne_nil hne
  cases hes : (mkStatistics pd).entries with
  | nil => exact absurd hes hene
  | cons a rest =>
    rw [hes, chained_cons] at hch
    have hrest : ∀ e ∈ rest, 1 ≤ e.prob := by
      intro e he
      apply hp
      rw [hes]
      exact List.mem_cons_of_mem _ he
    have h1 := hch.2.le hrest
    have ha : a ∈ (mkStatistics pd).entries := by
      rw [hes]; exact List.mem_cons_self _ _
    have h2 := hp a ha
    omega

/-- C1: for every table built from a non-empty ordered mapping with positive
integer frequencies and every sequence over that alphabet,
`decode (encode sequence) = sequence`; in particular `encode [] = 0` and
`decode 0 = []`. -/
theorem claim_c1_roundtrip {α : Type} [DecidableEq α] (pd : List (α × Int))
    (hne : pd ≠ []) (hnodup : (pd.map Prod.fst).Nodup)
    (hpos : ∀ q ∈ pd, 1 ≤ q.2) (symbs : List α)
    (hmem : ∀ s ∈ symbs, s ∈ pd.map Prod.fst) :
    Except.bind (encode (mkStatistics pd) symbs) (decode (mkStatistics pd))
        = Except.ok symbs
    ∧ encode (mkStatistics pd) ([] : List α) = Except.ok 0
    ∧ decode (mkStatistics pd) 0 = Except.ok [] := by
  have hch := mk_chained pd
  have hp := mk_probs_pos hpos
  have hsy : ∀ s ∈ symbs, ∃ e, (mkStatistics pd).lookup s = some e := by
    intro s hs
    exact Statistics.lookup_isSome (by rw [mk_symbs]; exact hmem s hs)
  obtain ⟨v, hv⟩ := encodeAux_ok_of_known symbs 0 hsy
  have henc : encode (mkStatistics pd) symbs = Except.ok v := hv
  obtain ⟨hv0, hdec⟩ := decodeAux_encodeAux hch hp symbs v henc
  have hdecv : decode (mkStatistics pd) v = Except.ok symbs := decode_eq hdec
  refine ⟨?_, rfl, decode_eq (decodeAux_nonpos _ _ (by omega))⟩
  rw [henc]
  exact hdecv

/-- C1 witness: the round trip instantiated at the table `{'a': 1, 'b': 1}`
and the sequence `"ab"`. -/
theorem claim_c1_roundtrip_witness :
    (([('a', (1 : Int)), ('b', 1)] : List (Char × Int)) ≠ []
      ∧ ([('a', (1 : Int)), ('b', 1)].map Prod.fst).Nodup
      ∧ (∀ q ∈ [('a', (1 : Int)), ('b', 1)], 1 ≤ q.2)
      ∧ (∀ s ∈ (['a', 'b'] : List Char),
          s ∈ [('a', (1 : Int)), ('b', 1)].map Prod.fst))
    ∧ (Except.bind (encode (mkStatistics [('a', (1 : Int)), ('b', 1)]) ['a', 'b'])
          (decode (mkStatistics [('a', (1 : Int)), ('b', 1)]))
        = Except.ok ['a', 'b']
      ∧ encode (mkStatistics [('a', (1 : Int)), ('b', 1)]) ([] : List Char)
        = Except.ok 0
      ∧ decode (mkStatistics [('a', (1 : Int)), ('b', 1)]) 0 = Except.ok []) :=
  ⟨⟨by decide, by decide, by decide, by decide⟩,
    claim_c1_roundtrip [('a', (1 : Int)), ('b', 1)] (by decide) (by decide)
      (by decide) ['a', 'b'] (by decide)⟩

/-- C3: structural invariants of a constructed table: every cdf is at least
`1`, cdfs strictly increase in insertion order, adjacent entries satisfy
`cdf + prob = next cdf`, the last entry ends at `total`,
`total = 1 + sum of frequencies`, and the per-symbol half-open ranges
partition `[1, total)` (every such value lies in exactly one range). -/
theorem claim_c3_table_invariants {α : Type} [DecidableEq α] (pd : List (α × Int))
    (hne : pd ≠ []) (hnodup : (pd.map Prod.fst).Nodup)
    (hpos : ∀ q ∈ pd, 1 ≤ q.2) :
    (∀ e ∈ (mkStatistics pd).entries, 1 ≤ e.cdf)
    ∧ ((mkStatistics pd).entries.map SymbolStat.cdf).Pairwise (· < ·)
    ∧ List.Chain' (fun a b => a.cdf + a.prob = b.cdf) (mkStatistics pd).entries
    ∧ (∀ e, (mkStatistics pd).entries.getLast? = some e →
        e.cdf + e.prob = (mkStatistics pd).total)
    ∧ (mkStatistics pd).total = 1 + (pd.map Prod.snd).sum
    ∧ (∀ x : Int, 1 ≤ x → x < (mkStatistics pd).total →
        ∃ e ∈ (mkStatistics pd).entries,
          (e.cdf ≤ x ∧ x < e.cdf + e.prob)
          ∧ ∀ f ∈ (mkStatistics pd).entries,
              f.cdf ≤ x → x < f.cdf + f.prob → f = e) := by
  have hch := mk_chained pd
  have hp := mk_probs_pos hpos
  refine ⟨?_, hch.pairwise_lt hp, hch.chain_adjacent, hch.last_spec,
    mk_total pd, ?_⟩
  · intro e he
    exact (hch.mem_bounds hp e he).1
  · intro x hx1 hx2
    obtain ⟨e, hmem, hb1, hb2⟩ := hch.exists_containing hp hx1 hx2
    refine ⟨e, hmem, ⟨hb1, hb2⟩, ?_⟩
    intro f hf hf1 hf2
    have h1 := Statistics.get_by_cdf_ok_of_mem hch hp hmem hb1 hb2
    have h2 := Statistics.get_by_cdf_ok_of_mem hch hp hf hf1 hf2
    have h3 := h2.symm.trans h1
    simpa using h3

/-- C3 witness: the invariants instantiated at the table `{'a': 1, 'b': 2}`. -/
theorem claim_c3_table_invariants_witness :
    (([('a', (1 : Int)), ('b', 2)] : List (Char × Int)) ≠ []
      ∧ ([('a', (1 : Int)), ('b', 2)].map Prod.fst).Nodup
      ∧ (∀ q ∈ [('a', (1 : Int)), ('b', 2)], 1 ≤ q.2))
    ∧ (mkStatistics [('a', (1 : Int)), ('b', 2)]).total
        = 1 + ([('a', (1 : Int)), ('b', 2)].map Prod.snd).sum :=
  ⟨⟨by decide, by decide, by decide⟩,
    (claim_c3_table_invariants [('a', (1 : Int)), ('b', 2)] (by decide)
      (by decide) (by decide)).2.2.2.2.1⟩

/-- C4 counterexample: with the table built from `{'a': 1}` (single range
`[1, 2)`, `total = 2`), the value `2` lies outside every symbol's half-open
range, yet `get_by_cdf` returns the `'a'` entry instead of failing: the
claimed "fails if and only if the value falls outside every range" is false
for values `≥ total`. -/
theorem claim_c4_counterexample :
    (mkStatistics [('a', (1 : Int))]).get_by_cdf 2 = Except.ok ⟨'a', 1, 1⟩
    ∧ (mkStatistics [('a', (1 : Int))]).entries = [⟨'a', 1, 1⟩]
    ∧ (mkStatistics [('a', (1 : Int))]).total = 2
    ∧ ¬((1 : Int) ≤ 2 ∧ (2 : Int) < 1 + 1) :=
  ⟨rfl, rfl, rfl, by decide⟩

/-- C4 amended: for a correctly constructed table, `get_by_cdf` returns the
unique entry whose half-open range contains the value whenever one exists;
it fails with the invalid-code error exactly when the value is below the
first entry's cumulative, i.e. when `value < 1` (so never for
`value ≥ total`, where it returns the last entry instead of failing). -/
theorem claim_c4_get_by_cdf {α : Type} [DecidableEq α] (pd : List (α × Int))
    (hne : pd ≠ []) (hnodup : (pd.map Prod.fst).Nodup)
    (hpos : ∀ q ∈ pd, 1 ≤ q.2) (x : Int) :
    (∀ e ∈ (mkStatistics pd).entries, e.cdf ≤ x → x < e.cdf + e.prob →
        (mkStatistics pd).get_by_cdf x = Except.ok e)
    ∧ ((∃ m, (mkStatistics pd).get_by_cdf x = Except.error m) ↔ x < 1) := by
  have hch := mk_chained pd
  have hp := mk_probs_pos hpos
  refine ⟨?_, Statistics.get_by_cdf_error_iff hch (mk_entries_ne_nil hne)⟩
  intro e he h1 h2
  exact Statistics.get_by_cdf_ok_of_mem hch hp he h1 h2

/-- C4 witness: lookup in the `{'a': 1}` table at value `1` returns the
`'a'` entry, and the error characterisation holds there. -/
theorem claim_c4_get_by_cdf_witness :
    (([('a', (1 : Int))] : List (Char × Int)) ≠ []
      ∧ ([('a', (1 : Int))].map Prod.fst).Nodup
      ∧ (∀ q ∈ [('a', (1 : Int))], 1 ≤ q.2))
    ∧ ((∀ e ∈ (mkStatistics [('a', (1 : Int))]).entries,
          e.cdf ≤ 1 → (1 : Int) < e.cdf + e.prob →
          (mkStatistics [('a', (1 : Int))]).get_by_cdf 1 = Except.ok e)
      ∧ ((∃ m, (mkStatistics [('a', (1 : Int))]).get_by_cdf 1
            = Except.error m) ↔ (1 : Int) < 1)) :=
  ⟨⟨by decide, by decide, by decide⟩,
    claim_c4_get_by_cdf [('a', (1 : Int))] (by decide) (by decide) (by decide) 1⟩

/-- C7 counterexample: with the correctly constructed table `{'a': 1}`
(`total = 2`) and the non-negative input `2`, decode hits the invalid-code
error (`2 % 2 = 0` is below every cdf), refuting "never raises". -/
theorem claim_c7_counterexample :
    decode (mkStatistics [('a', (1 : Int))]) 2 = Except.error "invalid cdf: 0"
    ∧ (0 : Int) ≤ 2
    ∧ (mkStatistics [('a', (1 : Int))]).total = 2 :=
  ⟨rfl, by decide, rfl⟩

/-- C7 amended: for every correctly constructed table, decode runs to
completion on every integer input (the loop cannot hang), and it decodes
every value produced by encode without error; but on non-negative inputs not
produced by encode it can raise the invalid-code error, and does so at input
`total` (whose first remainder is `0`, below every cumulative). -/
theorem claim_c7_decode_totality {α : Type} [DecidableEq α] (pd : List (α × Int))
    (hne : pd ≠ []) (hnodup : (pd.map Prod.fst).Nodup)
    (hpos : ∀ q ∈ pd, 1 ≤ q.2) :
    (∀ enc : Int, decodeAux (mkStatistics pd) (enc.toNat + 1) enc ≠ none)
    ∧ decode (mkStatistics pd) (mkStatistics pd).total
        = Except.error "invalid cdf: 0"
    ∧ (∀ symbs : List α, ∀ v : Int,
        encode (mkStatistics pd) symbs = Except.ok v →
          decode (mkStatistics pd) v = Except.ok symbs) := by
  have hch := mk_chained pd
  have hp := mk_probs_pos hpos
  refine ⟨?_, ?_, ?_⟩
  · intro enc
    exact decodeAux_total hch hp _ enc (by have := Int.self_le_toNat enc; omega)
  · have htot2 := mk_total_ge_two hne hpos
    have htpos : (0 : Int) < (mkStatistics pd).total := by omega
    have hfmod : (mkStatistics pd).total.fmod (mkStatistics pd).total = 0 := by
      rw [Int.fmod_eq_emod _ (by omega)]
      exact Int.emod_self
    have hg : (mkStatistics pd).get_by_cdf
        ((mkStatistics pd).total.fmod (mkStatistics pd).total)
        = Except.error ("invalid cdf: " ++ toString (0 : Int)) := by
      rw [hfmod]
      exact Statistics.get_by_cdf_error_eq hch (by omega)
    have hdec := decodeAux_succ_error (mkStatistics pd)
      (mkStatistics pd).total.toNat htpos hg
    have hde := decode_eq hdec
    rw [hde]
    rfl
  · intro symbs v hv
    exact decode_eq (decodeAux_encodeAux hch hp symbs v hv).2

/-- C7 witness: instantiated at the table `{'a': 1, 'b': 1}`. -/
theorem claim_c7_decode_totality_witness :
    (([('a', (1 : Int)), ('b', 1)] : List (Char × Int)) ≠ []
      ∧ ([('a', (1 : Int)), ('b', 1)].map Prod.fst).Nodup
      ∧ (∀ q ∈ [('a', (1 : Int)), ('b', 1)], 1 ≤ q.2))
    ∧ decode (mkStatistics [('a', (1 : Int)), ('b', 1)])
        (mkStatistics [('a', (1 : Int)), ('b', 1)]).total
        = Except.error "invalid cdf: 0" :=
  ⟨⟨by decide, by decide, by decide⟩,
    (claim_c7_decode_totality [('a', (1 : Int)), ('b', 1)] (by decide)
      (by decide) (by decide)).2.1⟩

/-- C8: for every table built from positive frequencies and every
non-negative input, the decode loop terminates within `enc` iterations
(fuel `enc.toNat + 1` never runs out), because every successful iteration
strictly decreases the positive accumulator. -/
theorem claim_c8_decode_terminates {α : Type} [DecidableEq α]
    (pd : List (α × Int)) (hpos : ∀ q ∈ pd, 1 ≤ q.2)
    (enc : Int) (henc : 0 ≤ enc) :
    (∀ (stats : SymbolStat α) (v : Int), 0 < v →
        (mkStatistics pd).get_by_cdf (v.fmod (mkStatistics pd).total)
            = Except.ok stats →
        decStep (mkStatistics pd) stats v < v)
    ∧ decodeAux (mkStatistics pd) (enc.toNat + 1) enc ≠ none := by
  have hch := mk_chained pd
  have hp := mk_probs_pos hpos
  refine ⟨?_, ?_⟩
  · intro stats v hv hg
    exact (decStep_lt hch hp hv hg).1
  · exact decodeAux_total hch hp _ enc (by have := Int.self_le_toNat enc; omega)

/-- C8 witness: instantiated at the table `{'a': 1, 'b': 1}` and input `7`. -/
theorem claim_c8_decode_terminates_witness :
    ((∀ q ∈ [('a', (1 : Int)), ('b', 1)], 1 ≤ q.2) ∧ (0 : Int) ≤ 7)
    ∧ decodeAux (mkStatistics [('a', (1 : Int)), ('b', 1)])
        ((7 : Int).toNat + 1) 7 ≠ none :=
  ⟨⟨by decide, by decide⟩,
    (claim_c8_decode_terminates [('a', (1 : Int)), ('b', 1)] (by decide)
      7 (by decide)).2⟩

end Claims
